import Mathlib

/-!
Shallow embedding of the rust-rp6lib hardware-access layer.

The embedding follows the source files:
- `src/avr/device/register.rs` (registers and raw mask operations),
- `src/avr/device/pin.rs` (pins, the `pin!` and `set_pins!` macros),
- `src/avr/interrupt/mod.rs` (critical sections and the nesting counter),
- `macros/src/lib.rs` (vector lookup, `#[interrupt]`, `extract_static_muts`).

Machine integers are modelled as `Nat` with explicit `% 2^w` at each store,
and the hardware address space as a function from addresses to values.
-/

/-! ## Register model (`src/avr/device/register.rs`) -/

/-- The address space: a simulated memory cell per address. -/
def Mem : Type := Nat → Nat

/-- A register: a fixed address and a value width (8 or 16 bits), exactly the
compile-time data carried by the `Register` trait (`ADDRESS`, `type T`). -/
structure RegisterDef where
  address : Nat
  width : Nat
deriving DecidableEq

namespace RegisterDef

/-- Model of `core::ptr::write_volatile(ADDRESS, v)`: store `v` truncated to the
register's width at the register's address. -/
def write_volatile (R : RegisterDef) (v : Nat) (m : Mem) : Mem :=
  fun a => if a = R.address then v % 2 ^ R.width else m a

/-- Model of `core::ptr::read_volatile(ADDRESS)`. -/
def read_volatile (R : RegisterDef) (m : Mem) : Nat :=
  m R.address

/-- Model of `Register::write(value)`: one volatile store. -/
def write (R : RegisterDef) (v : Nat) (m : Mem) : Mem :=
  R.write_volatile v m

/-- Model of `Register::read()`: one volatile load. -/
def read (R : RegisterDef) (m : Mem) : Nat :=
  R.read_volatile m

/-- Bitwise complement `!mask` of a `w`-bit machine integer. -/
def bnot (w : Nat) (mask : Nat) : Nat :=
  (2 ^ w - 1) ^^^ mask

/-- Model of `Register::set_mask_raw(mask)`: read-modify-write `r |= mask`. -/
def set_mask_raw (R : RegisterDef) (mask : Nat) (m : Mem) : Mem :=
  R.write_volatile (R.read_volatile m ||| mask) m

/-- Model of `Register::unset_mask_raw(mask)`: read-modify-write `r &= !mask`. -/
def unset_mask_raw (R : RegisterDef) (mask : Nat) (m : Mem) : Mem :=
  R.write_volatile (R.read_volatile m &&& bnot R.width mask) m

/-- Model of `Register::toggle_raw(mask)`: read-modify-write `r ^= mask`. -/
def toggle_raw (R : RegisterDef) (mask : Nat) (m : Mem) : Mem :=
  R.write_volatile (R.read_volatile m ^^^ mask) m

/-- Model of `Register::is_mask_set_raw(mask)`: `(r & mask) == mask`. -/
def is_mask_set_raw (R : RegisterDef) (mask : Nat) (m : Mem) : Bool :=
  (R.read_volatile m &&& mask) == mask

/-- Model of `Register::is_clear_raw(mask)`: `(r & mask) == 0`. -/
def is_clear_raw (R : RegisterDef) (mask : Nat) (m : Mem) : Bool :=
  (R.read_volatile m &&& mask) == 0

end RegisterDef

/-- C5: `write(v)` then `read()` yields `v` modulo the register's width. -/
theorem write_read_mod (R : RegisterDef) (v : Nat) (m : Mem)
    (h : R.width = 8 ∨ R.width = 16) :
    R.read (R.write v m) = v % 2 ^ R.width := by
  cases h <;>
    simp [RegisterDef.read, RegisterDef.write, RegisterDef.read_volatile,
      RegisterDef.write_volatile]

theorem write_read_mod_witness :
    ((⟨77, 8⟩ : RegisterDef).width = 8 ∨ (⟨77, 8⟩ : RegisterDef).width = 16) ∧
      (⟨77, 8⟩ : RegisterDef).read ((⟨77, 8⟩ : RegisterDef).write 300 (fun _ => 0)) =
        300 % 2 ^ (⟨77, 8⟩ : RegisterDef).width :=
  ⟨Or.inl rfl, write_read_mod ⟨77, 8⟩ 300 (fun _ => 0) (Or.inl rfl)⟩

/-- C6: `set_mask_raw(m)` then `unset_mask_raw(m)` leaves every bit outside the
mask at its original value and clears every bit inside the mask. -/
theorem set_then_unset_mask (R : RegisterDef) (mask : Nat) (m : Mem)
    (hr : m R.address < 2 ^ R.width) :
    (∀ i, mask.testBit i = false →
      ((R.unset_mask_raw mask (R.set_mask_raw mask m)) R.address).testBit i =
        (m R.address).testBit i) ∧
    (∀ i, mask.testBit i = true →
      ((R.unset_mask_raw mask (R.set_mask_raw mask m)) R.address).testBit i = false) := by
  constructor <;> intro i hi <;>
    · simp only [RegisterDef.unset_mask_raw, RegisterDef.set_mask_raw,
        RegisterDef.write_volatile, RegisterDef.read_volatile, RegisterDef.bnot,
        if_pos rfl, Nat.testBit_mod_two_pow, Nat.testBit_and, Nat.testBit_or,
        Nat.testBit_xor, Nat.testBit_two_pow_sub_one, hi]
      by_cases hlt : i < R.width
      · simp [hlt, hi]
      · have : (m R.address).testBit i = false :=
          Nat.testBit_lt_two_pow (Nat.lt_of_lt_of_le hr
            (Nat.pow_le_pow_right (by omega) (by omega)))
        simp [hlt, this]

theorem set_then_unset_mask_witness :
    ((fun _ => 6 : Mem) (⟨3, 8⟩ : RegisterDef).address < 2 ^ (⟨3, 8⟩ : RegisterDef).width) ∧
    ((∀ i, (10 : Nat).testBit i = false →
      (((⟨3, 8⟩ : RegisterDef).unset_mask_raw 10
        ((⟨3, 8⟩ : RegisterDef).set_mask_raw 10 (fun _ => 6))) 3).testBit i =
        ((fun _ => 6 : Mem) 3).testBit i) ∧
    (∀ i, (10 : Nat).testBit i = true →
      (((⟨3, 8⟩ : RegisterDef).unset_mask_raw 10
        ((⟨3, 8⟩ : RegisterDef).set_mask_raw 10 (fun _ => 6))) 3).testBit i = false)) :=
  ⟨by decide, set_then_unset_mask ⟨3, 8⟩ 10 (fun _ => 6) (by decide)⟩

/-! ## Pin model (`src/avr/device/pin.rs`) -/

/-- A pin defined through the `pin!` macro: a direction register `DDR`, an
output register `PORT`, an input register `PIN` (all `u8` registers) and a
bit offset; the macro always sets `MASK = 1 << OFFSET`. -/
structure PinDef where
  ddr : RegisterDef
  port : RegisterDef
  pinReg : RegisterDef
  offset : Nat
deriving DecidableEq

namespace PinDef

/-- Model of `const MASK: u8 = 1 << $mask_bit` from the `pin!` macro. -/
def mask (p : PinDef) : Nat := 1 <<< p.offset

/-- Model of `Pin::is_high()`: `PIN::is_mask_set_raw(MASK)`. -/
def is_high (p : PinDef) (m : Mem) : Bool :=
  p.pinReg.is_mask_set_raw p.mask m

/-- Model of `Pin::is_low()`: `PIN::is_clear_raw(MASK)`. -/
def is_low (p : PinDef) (m : Mem) : Bool :=
  p.pinReg.is_clear_raw p.mask m

end PinDef

/-- C10: for a pin defined through `pin!` (mask `1 << OFFSET`), `is_low()` is
exactly the negation of `is_high()` on the same register value. -/
theorem is_low_eq_not_is_high (p : PinDef) (m : Mem) :
    p.is_low m = !p.is_high m := by
  simp only [PinDef.is_low, PinDef.is_high, RegisterDef.is_clear_raw,
    RegisterDef.is_mask_set_raw, PinDef.mask, Nat.shiftLeft_eq, one_mul]
  have hpos : 0 < 2 ^ p.offset := Nat.pos_pow_of_pos p.offset (by omega)
  rcases h : (p.pinReg.read_volatile m).testBit p.offset with _ | _ <;>
    · rw [Nat.and_two_pow, h]
      simp [Nat.ne_of_lt hpos, Nat.ne_of_gt hpos]

/-! ## Critical sections (`src/avr/interrupt/mod.rs`) -/

/-- Bit width of `usize` on the AVR target: 16 bits (the `entry` macro rejects
any non-AVR target with a `compile_error!`). -/
def usizeBits : Nat := 16

/-- The interrupt-relevant machine state: the global interrupt-enabled flag
(the `I` bit toggled by `CLI`/`SEI`) and the value of the process-wide
`CRITICAL_SECTION_COUNTER` mutex cell — a `usize`, modelled as a `Nat` kept
below `2 ^ usizeBits` by wrapping arithmetic (the release-profile semantics
of the source's `x + 1` / `x - 1`; the debug-profile overflow panic is not
modelled). -/
structure AvrState where
  interruptsEnabled : Bool
  counter : Nat
deriving DecidableEq

namespace CriticalSection

/-- Model of `CriticalSection::new()`: execute `CLI` (disable interrupts), then
increment `CRITICAL_SECTION_COUNTER` via `update(|x| x + 1)` — a wrapping
`usize` addition. -/
def new (s : AvrState) : AvrState :=
  { interruptsEnabled := false, counter := (s.counter + 1) % 2 ^ usizeBits }

/-- Model of `Drop for CriticalSection`: `update(|x| { if x == 1 { SEI } x - 1 })` —
execute `SEI` exactly when the counter reads 1, then decrement — a wrapping
`usize` subtraction. -/
def drop (s : AvrState) : AvrState :=
  { interruptsEnabled := if s.counter = 1 then true else s.interruptsEnabled,
    counter := (s.counter + (2 ^ usizeBits - 1)) % 2 ^ usizeBits }

/-- Whether a `drop` from state `s` physically executes `SEI`. -/
def dropEmitsSEI (s : AvrState) : Bool :=
  s.counter = 1

/-- Entering `n` nested critical sections. -/
def enterN (n : Nat) (s : AvrState) : AvrState := new^[n] s

/-- Exiting (dropping) `n` nested critical sections. -/
def exitN (n : Nat) (s : AvrState) : AvrState := drop^[n] s

end CriticalSection

namespace CriticalSection

theorem enterN_succ (n : Nat) (s : AvrState) : enterN (n + 1) s = new (enterN n s) := by
  simp [enterN, Function.iterate_succ_apply']

theorem exitN_succ (n : Nat) (s : AvrState) : exitN (n + 1) s = exitN n (drop s) := by
  simp [exitN, Function.iterate_succ_apply]

theorem two_pow_usizeBits : 2 ^ usizeBits = 65536 := by
  norm_num [usizeBits]

theorem new_counter_add (s : AvrState) (h : s.counter + 1 < 2 ^ usizeBits) :
    (new s).counter = s.counter + 1 := by
  simp only [new]
  rw [two_pow_usizeBits] at h ⊢
  omega

theorem drop_counter_sub (s : AvrState) (h1 : 1 ≤ s.counter)
    (h2 : s.counter < 2 ^ usizeBits) : (drop s).counter = s.counter - 1 := by
  simp only [drop]
  rw [two_pow_usizeBits] at h2 ⊢
  omega

theorem enterN_closed (n : Nat) (s : AvrState) (hc : s.counter = 0) (hn : 1 ≤ n)
    (hlt : n < 2 ^ usizeBits) :
    enterN n s = { interruptsEnabled := false, counter := n } := by
  induction n with
  | zero => omega
  | succ k ih =>
    rcases Nat.eq_zero_or_pos k with h1 | h1
    · subst h1
      show new s = _
      simp [new, hc, two_pow_usizeBits]
    · rw [two_pow_usizeBits] at hlt
      rw [enterN_succ, ih h1 (by rw [two_pow_usizeBits]; omega)]
      simp only [new, AvrState.mk.injEq, true_and, two_pow_usizeBits]
      omega

theorem exitN_closed (n : Nat) (e : Bool) (hn : 1 ≤ n) (hlt : n < 2 ^ usizeBits) :
    exitN n { interruptsEnabled := e, counter := n } =
      { interruptsEnabled := true, counter := 0 } := by
  induction n generalizing e with
  | zero => omega
  | succ k ih =>
    rcases Nat.eq_zero_or_pos k with h1 | h1
    · subst h1
      show drop { interruptsEnabled := e, counter := 0 + 1 } = _
      simp [drop, two_pow_usizeBits]
    · rw [two_pow_usizeBits] at hlt
      rw [exitN_succ]
      have hdrop : drop { interruptsEnabled := e, counter := k + 1 } =
          { interruptsEnabled := e, counter := k } := by
        simp only [drop, AvrState.mk.injEq, two_pow_usizeBits]
        refine ⟨by rw [if_neg (by omega)], by omega⟩
      rw [hdrop, ih e h1 (by rw [two_pow_usizeBits]; omega)]

theorem exitN_enabled_false (k : Nat) (s : AvrState)
    (he : s.interruptsEnabled = false) (hk : k < s.counter)
    (hlt : s.counter < 2 ^ usizeBits) :
    (exitN k s).interruptsEnabled = false := by
  induction k generalizing s with
  | zero => simpa [exitN] using he
  | succ j ih =>
    rw [exitN_succ]
    have hsub : (drop s).counter = s.counter - 1 :=
      drop_counter_sub s (by omega) hlt
    refine ih (drop s) ?_ ?_ ?_
    · simp only [drop]
      rw [if_neg (by omega)]
      exact he
    · rw [hsub]
      omega
    · rw [hsub]
      exact Nat.lt_of_le_of_lt (Nat.sub_le _ _) hlt

end CriticalSection

/-- C1 as stated is false: from a machine state in which interrupts are
disabled (and no critical section is open), entering one critical section and
then exiting it leaves interrupts enabled — not disabled as before the entry.
(`Drop` runs `SEI` unconditionally when the counter reaches 0; it does not
restore a previously-disabled state.) -/
theorem nested_restore_counterexample :
    (CriticalSection.exitN 1 (CriticalSection.enterN 1
        { interruptsEnabled := false, counter := 0 })).interruptsEnabled = true ∧
      ({ interruptsEnabled := false, counter := 0 } : AvrState).interruptsEnabled = false := by
  constructor
  · decide
  · rfl

/-- C1 (amended): from a machine state in which interrupts are enabled and no
critical section is open, entering N critical sections (1 <= N, with N below
the wrapping range of the `usize` counter, 2^16 on this 16-bit target) and
then exiting all N restores the state exactly (interrupts enabled, counter
0), and interrupts are disabled at every intermediate nesting level between
the first entry and the last exit. -/
theorem nested_enter_exit_restores (s : AvrState) (N : Nat)
    (hen : s.interruptsEnabled = true) (hc : s.counter = 0) (hN : 1 ≤ N)
    (hNlt : N < 2 ^ usizeBits) :
    CriticalSection.exitN N (CriticalSection.enterN N s) = s ∧
    (∀ k, 1 ≤ k → k ≤ N → (CriticalSection.enterN k s).interruptsEnabled = false) ∧
    (∀ k, k < N →
      (CriticalSection.exitN k (CriticalSection.enterN N s)).interruptsEnabled = false) := by
  refine ⟨?_, ?_, ?_⟩
  · rw [CriticalSection.enterN_closed N s hc hN hNlt,
      CriticalSection.exitN_closed N false hN hNlt]
    cases s
    simp_all
  · intro k hk1 hkN
    rw [CriticalSection.enterN_closed k s hc hk1 (Nat.lt_of_le_of_lt hkN hNlt)]
  · intro k hkN
    rw [CriticalSection.enterN_closed N s hc hN hNlt]
    exact CriticalSection.exitN_enabled_false k _ rfl hkN hNlt

theorem nested_enter_exit_restores_witness :
    (({ interruptsEnabled := true, counter := 0 } : AvrState).interruptsEnabled = true ∧
      ({ interruptsEnabled := true, counter := 0 } : AvrState).counter = 0 ∧
      1 ≤ 2 ∧ 2 < 2 ^ usizeBits) ∧
    (CriticalSection.exitN 2 (CriticalSection.enterN 2
        { interruptsEnabled := true, counter := 0 }) =
      { interruptsEnabled := true, counter := 0 } ∧
    (∀ k, 1 ≤ k → k ≤ 2 → (CriticalSection.enterN k
        ({ interruptsEnabled := true, counter := 0 } : AvrState)).interruptsEnabled = false) ∧
    (∀ k, k < 2 → (CriticalSection.exitN k (CriticalSection.enterN 2
        ({ interruptsEnabled := true, counter := 0 } : AvrState))).interruptsEnabled = false)) :=
  ⟨⟨rfl, rfl, by omega, by decide⟩,
    nested_enter_exit_restores { interruptsEnabled := true, counter := 0 } 2 rfl rfl
      (by omega) (by decide)⟩

/-! ## Critical-section traces (entry/exit sequences) -/

/-- One event in a sequence of critical-section operations: a
`CriticalSection::new` or a `Drop`. -/
inductive CsEvent where
  | enter
  | exited
deriving DecidableEq

/-- Effect of one event on the machine state (C2 trace semantics). -/
def csStep (s : AvrState) : CsEvent → AvrState
  | .enter => CriticalSection.new s
  | .exited => CriticalSection.drop s

/-- Run a sequence of entry/exit events from a state. -/
def csRun (s : AvrState) : List CsEvent → AvrState
  | [] => s
  | e :: es => csRun (csStep s e) es

/-- Whether executing event `e` in state `s` physically emits `SEI`:
only a `Drop` whose counter read yields 1 does. -/
def emitsSEI (s : AvrState) : CsEvent → Bool
  | .enter => false
  | .exited => CriticalSection.dropEmitsSEI s

/-- Number of entries in an event list. -/
def enters (l : List CsEvent) : Nat := l.count CsEvent.enter

/-- Number of exits in an event list. -/
def exits (l : List CsEvent) : Nat := l.count CsEvent.exited

/-- Correct nesting: in every prefix, exits never outnumber entries. -/
def WellNested (l : List CsEvent) : Prop :=
  ∀ p, p <+: l → exits p ≤ enters p

theorem csRun_append (s : AvrState) (p q : List CsEvent) :
    csRun s (p ++ q) = csRun (csRun s p) q := by
  induction p generalizing s with
  | nil => rfl
  | cons e es ih => simp [csRun, ih]

theorem enters_cons_enter (l : List CsEvent) :
    enters (CsEvent.enter :: l) = enters l + 1 := by
  simp [enters, List.count_cons]

theorem enters_cons_exited (l : List CsEvent) :
    enters (CsEvent.exited :: l) = enters l := by
  simp [enters, List.count_cons]

theorem exits_cons_enter (l : List CsEvent) :
    exits (CsEvent.enter :: l) = exits l := by
  simp [exits, List.count_cons]

theorem exits_cons_exited (l : List CsEvent) :
    exits (CsEvent.exited :: l) = exits l + 1 := by
  simp [exits, List.count_cons]

theorem enters_append (l1 l2 : List CsEvent) :
    enters (l1 ++ l2) = enters l1 + enters l2 := by
  simp [enters, List.count_append]

theorem exits_append (l1 l2 : List CsEvent) :
    exits (l1 ++ l2) = exits l1 + exits l2 := by
  simp [exits, List.count_append]

/-- Along a trace whose nesting depth never leaves the `usize` range, the
wrapping counter arithmetic never actually wraps: the counter tracks the
exact depth `c + enters p - exits p` at every prefix `p`. -/
theorem csRun_counter_bounded (evs : List CsEvent) :
    ∀ (c : Nat) (s : AvrState), s.counter = c → c < 2 ^ usizeBits →
      (∀ p, p <+: evs → exits p ≤ c + enters p) →
      (∀ p, p <+: evs → c + enters p - exits p < 2 ^ usizeBits) →
      ∀ p, p <+: evs → (csRun s p).counter = c + enters p - exits p := by
  induction evs with
  | nil =>
    intro c s hc _ _ _ p hp
    rw [List.prefix_nil.mp hp]
    simpa [csRun, enters, exits] using hc
  | cons e2 es ih =>
    intro c s hc hlt hwn hbd p hp
    cases p with
    | nil => simpa [csRun, enters, exits] using hc
    | cons ev q =>
      rw [List.cons_prefix_cons] at hp
      obtain ⟨rfl, hq⟩ := hp
      have hcons : ∀ r : List CsEvent, r <+: es → (ev :: r) <+: (ev :: es) :=
        fun r hr => (List.cons_prefix_cons).mpr ⟨rfl, hr⟩
      cases ev with
      | enter =>
        have hb1 := hbd [CsEvent.enter] (hcons [] ⟨es, rfl⟩)
        rw [show enters [CsEvent.enter] = 1 from by decide,
          show exits [CsEvent.enter] = 0 from by decide, CriticalSection.two_pow_usizeBits] at hb1
        have hstep : (csStep s CsEvent.enter).counter = c + 1 := by
          show (CriticalSection.new s).counter = c + 1
          have hh := CriticalSection.new_counter_add s
            (by rw [hc, CriticalSection.two_pow_usizeBits]; omega)
          rw [hh, hc]
        have hres := ih (c + 1) (csStep s CsEvent.enter) hstep
          (by rw [CriticalSection.two_pow_usizeBits]; omega)
          (fun r hr => by
            have h2 := hwn (CsEvent.enter :: r) (hcons r hr)
            rw [enters_cons_enter, exits_cons_enter] at h2
            omega)
          (fun r hr => by
            have h2 := hbd (CsEvent.enter :: r) (hcons r hr)
            rw [enters_cons_enter, exits_cons_enter, CriticalSection.two_pow_usizeBits] at h2
            rw [CriticalSection.two_pow_usizeBits]
            omega)
          q hq
        show (csRun (csStep s CsEvent.enter) q).counter =
          c + enters (CsEvent.enter :: q) - exits (CsEvent.enter :: q)
        rw [hres, enters_cons_enter, exits_cons_enter]
        omega
      | exited =>
        have hc1 : 1 ≤ c := by
          have h2 := hwn [CsEvent.exited] (hcons [] ⟨es, rfl⟩)
          rw [show enters [CsEvent.exited] = 0 from by decide,
            show exits [CsEvent.exited] = 1 from by decide] at h2
          omega
        have hstep : (csStep s CsEvent.exited).counter = c - 1 := by
          show (CriticalSection.drop s).counter = c - 1
          have hh := CriticalSection.drop_counter_sub s (by omega) (by omega)
          rw [hh, hc]
        have hres := ih (c - 1) (csStep s CsEvent.exited) hstep
          (Nat.lt_of_le_of_lt (Nat.sub_le _ _) hlt)
          (fun r hr => by
            have h2 := hwn (CsEvent.exited :: r) (hcons r hr)
            rw [enters_cons_exited, exits_cons_exited] at h2
            omega)
          (fun r hr => by
            have h2 := hbd (CsEvent.exited :: r) (hcons r hr)
            rw [enters_cons_exited, exits_cons_exited, CriticalSection.two_pow_usizeBits] at h2
            rw [CriticalSection.two_pow_usizeBits]
            omega)
          q hq
        have hwq := hwn (CsEvent.exited :: q) (hcons q hq)
        rw [enters_cons_exited, exits_cons_exited] at hwq
        show (csRun (csStep s CsEvent.exited) q).counter =
          c + enters (CsEvent.exited :: q) - exits (CsEvent.exited :: q)
        rw [hres, enters_cons_exited, exits_cons_exited]
        omega

theorem csRun_replicate_enter (n : Nat) :
    ∀ s : AvrState, s.counter < 2 ^ usizeBits →
      (csRun s (List.replicate n CsEvent.enter)).counter =
        (s.counter + n) % 2 ^ usizeBits := by
  induction n with
  | zero =>
    intro s h
    simp [csRun, Nat.mod_eq_of_lt h]
  | succ k ih =>
    intro s h
    rw [List.replicate_succ]
    show (csRun (csStep s CsEvent.enter) (List.replicate k CsEvent.enter)).counter = _
    rw [ih (csStep s CsEvent.enter)
      (Nat.mod_lt _ (Nat.pos_pow_of_pos usizeBits (by omega)))]
    show ((s.counter + 1) % 2 ^ usizeBits + k) % 2 ^ usizeBits = _
    rw [Nat.mod_add_mod]
    congr 1
    omega

/-- C2 as stated is false on the code: the counter is a wrapping `usize`
(16 bits on this AVR target), so on the correctly nested sequence of 65536
consecutive entries the 65536-th entry wraps the counter from 65535 to 0
instead of incrementing it. -/
theorem cs_trace_sei_counterexample :
    WellNested (List.replicate 65536 CsEvent.enter) ∧
    (List.replicate 65535 CsEvent.enter ++ [CsEvent.enter]) <+:
      List.replicate 65536 CsEvent.enter ∧
    (csRun { interruptsEnabled := true, counter := 0 }
        (List.replicate 65535 CsEvent.enter)).counter = 65535 ∧
    (csRun { interruptsEnabled := true, counter := 0 }
        (List.replicate 65535 CsEvent.enter ++ [CsEvent.enter])).counter = 0 ∧
    ¬ ((csRun { interruptsEnabled := true, counter := 0 }
          (List.replicate 65535 CsEvent.enter ++ [CsEvent.enter])).counter =
        (csRun { interruptsEnabled := true, counter := 0 }
          (List.replicate 65535 CsEvent.enter)).counter + 1) := by
  have hrepl : List.replicate 65536 CsEvent.enter =
      List.replicate 65535 CsEvent.enter ++ [CsEvent.enter] := by
    have h := List.replicate_succ' 65535 CsEvent.enter
    norm_num at h
    exact h
  have h1 : (csRun { interruptsEnabled := true, counter := 0 }
      (List.replicate 65535 CsEvent.enter)).counter = 65535 := by
    rw [csRun_replicate_enter 65535 _ (by decide)]
    decide
  have h2 : (csRun { interruptsEnabled := true, counter := 0 }
      (List.replicate 65535 CsEvent.enter ++ [CsEvent.enter])).counter = 0 := by
    rw [← hrepl, csRun_replicate_enter 65536 _ (by decide)]
    decide
  refine ⟨?_, ?_, h1, h2, ?_⟩
  · intro p hp
    have hz : exits p = 0 := by
      rw [exits, List.count_eq_zero]
      intro hmem
      exact absurd (List.eq_of_mem_replicate (hp.subset hmem)) (by decide)
    omega
  · rw [hrepl]
  · rw [h1, h2]
    omega

/-- C2 (amended): along every correctly nested sequence of critical-section
entries and exits whose nesting depth stays below the `usize` range (2^16 on
this 16-bit target), `SEI` is emitted exactly on an exit that brings the
counter from 1 to 0; every exit finds the counter at least 1 (the wrapping
decrement never takes it below zero) and decrements it by one; every entry
increments it by one and emits no `SEI`; and the counter always equals the
current nesting depth (entries minus exits), hence never goes negative. -/
theorem cs_trace_sei (evs : List CsEvent) (s0 : AvrState)
    (h0 : s0.counter = 0) (hw : WellNested evs)
    (hb : ∀ p, p <+: evs → enters p - exits p < 2 ^ usizeBits) :
    (∀ p, (p ++ [CsEvent.exited]) <+: evs →
      (emitsSEI (csRun s0 p) CsEvent.exited = true ↔
        (csRun s0 p).counter = 1 ∧ (csRun s0 (p ++ [CsEvent.exited])).counter = 0) ∧
      1 ≤ (csRun s0 p).counter ∧
      (csRun s0 (p ++ [CsEvent.exited])).counter = (csRun s0 p).counter - 1) ∧
    (∀ p, (p ++ [CsEvent.enter]) <+: evs →
      emitsSEI (csRun s0 p) CsEvent.enter = false ∧
      (csRun s0 (p ++ [CsEvent.enter])).counter = (csRun s0 p).counter + 1) ∧
    (∀ p, p <+: evs → (csRun s0 p).counter = enters p - exits p) := by
  have hcount : ∀ p, p <+: evs → (csRun s0 p).counter = enters p - exits p := by
    intro p hp
    have h := csRun_counter_bounded evs 0 s0 h0
      (Nat.pos_pow_of_pos usizeBits (by omega))
      (fun r hr => by rw [Nat.zero_add]; exact hw r hr)
      (fun r hr => by rw [Nat.zero_add]; exact hb r hr)
      p hp
    omega
  refine ⟨?_, ?_, hcount⟩
  · intro p hp
    have hsub : p <+: evs := List.IsPrefix.trans (List.prefix_append p _) hp
    have hful := hw (p ++ [CsEvent.exited]) hp
    rw [enters_append, exits_append,
      show enters [CsEvent.exited] = 0 from by decide,
      show exits [CsEvent.exited] = 1 from by decide] at hful
    have hcp := hcount p hsub
    have hcq := hcount (p ++ [CsEvent.exited]) hp
    rw [enters_append, exits_append,
      show enters [CsEvent.exited] = 0 from by decide,
      show exits [CsEvent.exited] = 1 from by decide] at hcq
    refine ⟨?_, by omega, by omega⟩
    simp only [emitsSEI, CriticalSection.dropEmitsSEI, decide_eq_true_eq]
    constructor
    · intro h
      exact ⟨h, by omega⟩
    · intro h
      exact h.1
  · intro p hp
    have hsub : p <+: evs := List.IsPrefix.trans (List.prefix_append p _) hp
    have hwp := hw p hsub
    have hcp := hcount p hsub
    have hcq := hcount (p ++ [CsEvent.enter]) hp
    rw [enters_append, exits_append,
      show enters [CsEvent.enter] = 1 from by decide,
      show exits [CsEvent.enter] = 0 from by decide] at hcq
    exact ⟨rfl, by omega⟩

theorem cs_trace_sei_witness :
    (({ interruptsEnabled := true, counter := 0 } : AvrState).counter = 0 ∧
      WellNested [CsEvent.enter, CsEvent.enter, CsEvent.exited, CsEvent.exited] ∧
      (∀ p, p <+: [CsEvent.enter, CsEvent.enter, CsEvent.exited, CsEvent.exited] →
        enters p - exits p < 2 ^ usizeBits)) ∧
    (∀ p, (p ++ [CsEvent.exited]) <+:
        [CsEvent.enter, CsEvent.enter, CsEvent.exited, CsEvent.exited] →
      (emitsSEI (csRun { interruptsEnabled := true, counter := 0 } p) CsEvent.exited = true ↔
        (csRun { interruptsEnabled := true, counter := 0 } p).counter = 1 ∧
        (csRun { interruptsEnabled := true, counter := 0 }
          (p ++ [CsEvent.exited])).counter = 0) ∧
      1 ≤ (csRun { interruptsEnabled := true, counter := 0 } p).counter ∧
      (csRun { interruptsEnabled := true, counter := 0 } (p ++ [CsEvent.exited])).counter =
        (csRun { interruptsEnabled := true, counter := 0 } p).counter - 1) ∧
    (∀ p, (p ++ [CsEvent.enter]) <+:
        [CsEvent.enter, CsEvent.enter, CsEvent.exited, CsEvent.exited] →
      emitsSEI (csRun { interruptsEnabled := true, counter := 0 } p) CsEvent.enter = false ∧
      (csRun { interruptsEnabled := true, counter := 0 } (p ++ [CsEvent.enter])).counter =
        (csRun { interruptsEnabled := true, counter := 0 } p).counter + 1) ∧
    (∀ p, p <+: [CsEvent.enter, CsEvent.enter, CsEvent.exited, CsEvent.exited] →
      (csRun { interruptsEnabled := true, counter := 0 } p).counter =
        enters p - exits p) :=
  ⟨⟨rfl, by
      intro p hp
      have : p ∈ [CsEvent.enter, CsEvent.enter, CsEvent.exited, CsEvent.exited].inits :=
        (List.mem_inits _ _).mpr hp
      fin_cases this <;> decide, by
      intro p hp
      have : p ∈ [CsEvent.enter, CsEvent.enter, CsEvent.exited, CsEvent.exited].inits :=
        (List.mem_inits _ _).mpr hp
      fin_cases this <;> decide⟩,
    cs_trace_sei [CsEvent.enter, CsEvent.enter, CsEvent.exited, CsEvent.exited]
      { interruptsEnabled := true, counter := 0 } rfl
      (by
        intro p hp
        have : p ∈ [CsEvent.enter, CsEvent.enter, CsEvent.exited, CsEvent.exited].inits :=
          (List.mem_inits _ _).mpr hp
        fin_cases this <;> decide)
      (by
        intro p hp
        have : p ∈ [CsEvent.enter, CsEvent.enter, CsEvent.exited, CsEvent.exited].inits :=
          (List.mem_inits _ _).mpr hp
        fin_cases this <;> decide)⟩

/-! ## Busy-wait polling (`wait_until`, `Register::wait_until_mask_set_raw`) -/

/-- The `loop { if f() { break } }` of `wait_until`, with the successive
condition evaluations indexed by an iteration counter `t` (each iteration
re-reads the register, so the condition may change over time) and explicit
fuel making nontermination observable: `some t` means the loop breaks at
iteration `t`; the Rust loop itself has no timeout, fuel is only a vantage
point of the model. -/
def wait_until (f : Nat → Bool) (t : Nat) : Nat → Option Nat
  | 0 => none
  | fuel + 1 => if f t then some t else wait_until f (t + 1) fuel

/-- Model of `Register::wait_until_mask_set_raw(mask)`:
`wait_until(|| Self::is_mask_set_raw(mask))`, where iteration `t` reads the
memory state `trace t`. -/
def wait_until_mask_set_raw (R : RegisterDef) (mask : Nat) (trace : Nat → Mem)
    (fuel : Nat) : Option Nat :=
  wait_until (fun t => R.is_mask_set_raw mask (trace t)) 0 fuel

theorem wait_until_some (f : Nat → Bool) :
    ∀ fuel t0 t, wait_until f t0 fuel = some t →
      f t = true ∧ t0 ≤ t ∧ ∀ u, t0 ≤ u → u < t → f u = false := by
  intro fuel
  induction fuel with
  | zero => intro t0 t h; simp [wait_until] at h
  | succ k ih =>
    intro t0 t h
    rw [wait_until] at h
    by_cases hf : f t0
    · rw [if_pos hf] at h
      cases h
      exact ⟨hf, Nat.le_refl _, fun u hu1 hu2 => absurd (Nat.lt_of_le_of_lt hu1 hu2)
        (Nat.lt_irrefl _)⟩
    · rw [if_neg hf] at h
      obtain ⟨h1, h2, h3⟩ := ih (t0 + 1) t h
      refine ⟨h1, by omega, fun u hu1 hu2 => ?_⟩
      rcases Nat.eq_or_lt_of_le hu1 with he | hlt
      · rw [← he]
        exact Bool.eq_false_iff.mpr hf
      · exact h3 u hlt hu2
  
theorem wait_until_none (f : Nat → Bool) (hnever : ∀ t, f t = false) :
    ∀ fuel t0, wait_until f t0 fuel = none := by
  intro fuel
  induction fuel with
  | zero => intro t0; rfl
  | succ k ih =>
    intro t0
    rw [wait_until, if_neg (by rw [hnever t0]; exact Bool.false_ne_true), ih]

/-- C9: `wait_until_mask_set_raw(mask)` busy-spins re-reading the register and
returns exactly at the first read satisfying `is_mask_set_raw(mask)`; and if
no read ever satisfies the mask, it never returns (no fuel suffices — there
is no timeout). -/
theorem wait_until_mask_set_spec (R : RegisterDef) (mask : Nat) (trace : Nat → Mem) :
    (∀ fuel t, wait_until_mask_set_raw R mask trace fuel = some t →
      R.is_mask_set_raw mask (trace t) = true ∧
      ∀ u, u < t → R.is_mask_set_raw mask (trace u) = false) ∧
    ((∀ t, R.is_mask_set_raw mask (trace t) = false) →
      ∀ fuel, wait_until_mask_set_raw R mask trace fuel = none) := by
  constructor
  · intro fuel t h
    obtain ⟨h1, _, h3⟩ := wait_until_some _ fuel 0 t h
    exact ⟨h1, fun u hu => h3 u (Nat.zero_le u) hu⟩
  · intro hnever fuel
    exact wait_until_none _ hnever fuel 0

theorem wait_until_mask_set_spec_witness :
    (wait_until_mask_set_raw ⟨0, 8⟩ 1 (fun t _ => if t = 2 then 255 else 0) 5 = some 2 ∧
      ((⟨0, 8⟩ : RegisterDef).is_mask_set_raw 1
          ((fun t _ => if t = 2 then 255 else 0) 2) = true ∧
        ∀ u, u < 2 → (⟨0, 8⟩ : RegisterDef).is_mask_set_raw 1
          ((fun t _ => if t = 2 then 255 else 0) u) = false)) ∧
    ((∀ t : Nat, (⟨0, 8⟩ : RegisterDef).is_mask_set_raw 1 ((fun _ _ => 0) t) = false) ∧
      wait_until_mask_set_raw ⟨0, 8⟩ 1 (fun _ _ => 0) 7 = none) :=
  ⟨⟨by decide,
      (wait_until_mask_set_spec ⟨0, 8⟩ 1 (fun t _ => if t = 2 then 255 else 0)).1 5 2
        (by decide)⟩,
    ⟨fun _ => by simp [RegisterDef.is_mask_set_raw, RegisterDef.read_volatile],
      (wait_until_mask_set_spec ⟨0, 8⟩ 1 (fun _ _ => 0)).2
        (fun _ => by simp [RegisterDef.is_mask_set_raw, RegisterDef.read_volatile]) 7⟩⟩

/-! ## Interrupt vector table (`macros/src/lib.rs`) -/

/-- Model of `vector::lookup_vector`: the fixed ATmega32 name-to-slot table; any other
name yields `none`. -/
def lookup_vector (interrupt : String) : Option Nat :=
  if interrupt = "RESET" then some 0
  else if interrupt = "INT0" then some 1
  else if interrupt = "INT1" then some 2
  else if interrupt = "INT2" then some 3
  else if interrupt = "TIMER2_COMP" then some 4
  else if interrupt = "TIMER2_OVF" then some 5
  else if interrupt = "TIMER1_CAPT" then some 6
  else if interrupt = "TIMER1_COMPA" then some 7
  else if interrupt = "TIMER1_COMPB" then some 8
  else if interrupt = "TIMER1_OVF" then some 9
  else if interrupt = "TIMER0_COMP" then some 10
  else if interrupt = "TIMER0_OVF" then some 11
  else if interrupt = "SPI_STC" then some 12
  else if interrupt = "USART_RXC" then some 13
  else if interrupt = "USART_UDRE" then some 14
  else if interrupt = "USART_TXC" then some 15
  else if interrupt = "ADC" then some 16
  else if interrupt = "EE_RDY" then some 17
  else if interrupt = "ANA_COMP" then some 18
  else if interrupt = "TWI" then some 19
  else if interrupt = "SPM_RDY" then some 20
  else none

/-- The 21 interrupt names of the fixed ATmega32 table, in slot order. -/
def atmega32Vectors : List String :=
  ["RESET", "INT0", "INT1", "INT2", "TIMER2_COMP", "TIMER2_OVF", "TIMER1_CAPT",
   "TIMER1_COMPA", "TIMER1_COMPB", "TIMER1_OVF", "TIMER0_COMP", "TIMER0_OVF",
   "SPI_STC", "USART_RXC", "USART_UDRE", "USART_TXC", "ADC", "EE_RDY",
   "ANA_COMP", "TWI", "SPM_RDY"]

/-- The `#[interrupt]` attribute's handler registration: look up the handler's
name; an unknown name is turned into a compile error (`Interrupt ... unknown`),
a known one is exported under the vector slot's symbol. -/
def interrupt_registration (name : String) : Except String Nat :=
  match lookup_vector name with
  | some v => Except.ok v
  | none => Except.error ("Interrupt " ++ name ++ " unknown")

/-- C7: the lookup returns the documented slot for each of the 21 table names
(slot i for the i-th name), and for every name outside the table it returns
no slot and handler registration is refused with a compile error. -/
theorem lookup_vector_spec :
    (∀ i : Fin atmega32Vectors.length,
      lookup_vector (atmega32Vectors.get i) = some i.val) ∧
    (∀ s, s ∉ atmega32Vectors → lookup_vector s = none ∧
      interrupt_registration s = Except.error ("Interrupt " ++ s ++ " unknown")) := by
  constructor
  · decide
  · intro s hs
    simp only [atmega32Vectors, List.mem_cons, List.not_mem_nil, or_false, not_or] at hs
    obtain ⟨h1, h2, h3, h4, h5, h6, h7, h8, h9, h10, h11, h12, h13, h14, h15, h16,
      h17, h18, h19, h20, h21⟩ := hs
    have hl : lookup_vector s = none := by
      simp [lookup_vector, h1, h2, h3, h4, h5, h6, h7, h8, h9, h10, h11, h12, h13,
        h14, h15, h16, h17, h18, h19, h20, h21]
    exact ⟨hl, by simp [interrupt_registration, hl]⟩

theorem lookup_vector_spec_witness :
    lookup_vector (atmega32Vectors.get ⟨11, by decide⟩) = some 11 ∧
    ("FOO" ∉ atmega32Vectors ∧ lookup_vector "FOO" = none ∧
      interrupt_registration "FOO" = Except.error ("Interrupt " ++ "FOO" ++ " unknown")) :=
  ⟨lookup_vector_spec.1 ⟨11, by decide⟩,
    ⟨by decide, (lookup_vector_spec.2 "FOO" (by decide)).1,
      (lookup_vector_spec.2 "FOO" (by decide)).2⟩⟩

/-! ## Resource extraction (`extract_static_muts`, `macros/src/lib.rs`) -/

/-- A statement of a handler or entry body, as far as `extract_static_muts`
inspects it: a `static` item with its mutability and identifier, or any other
statement. `payload` stands for the remaining, uninspected syntax. -/
inductive Stmt where
  | staticVar (mutability : Bool) (ident : String) (payload : Nat)
  | other (payload : Nat)
deriving DecidableEq

/-- The scanning loop of `extract_static_muts`: `seen` is the set of already
extracted names, `statics` and `stmts` the two accumulators. A `static mut`
item whose name was already seen is an error; a non-`mut` `static` item is
pushed to `stmts` and scanning continues; the first other statement is pushed
and the scan breaks, appending the rest of the statements unchanged. -/
def extractGo (seen : List String) (statics stmts : List Stmt) :
    List Stmt → Except String (List Stmt × List Stmt)
  | [] => Except.ok (statics, stmts)
  | Stmt.staticVar true nm p :: rest =>
      if nm ∈ seen then
        Except.error ("the name " ++ nm ++ " is defined multiple times")
      else extractGo (nm :: seen) (statics ++ [Stmt.staticVar true nm p]) stmts rest
  | Stmt.staticVar false nm p :: rest =>
      extractGo seen statics (stmts ++ [Stmt.staticVar false nm p]) rest
  | Stmt.other p :: rest => Except.ok (statics, stmts ++ Stmt.other p :: rest)

/-- Model of `extract_static_muts(stmts)`. -/
def extract_static_muts (l : List Stmt) : Except String (List Stmt × List Stmt) :=
  extractGo [] [] [] l

/-- The names of the `static mut` declarations the scan extracts: the `mut`
statics of the leading run of `static` items. -/
def extractedNames : List Stmt → List String
  | Stmt.staticVar true nm _ :: rest => nm :: extractedNames rest
  | Stmt.staticVar false _ _ :: rest => extractedNames rest
  | _ => []

/-- The `static mut` declarations the scan extracts. -/
def extractedStatics : List Stmt → List Stmt
  | Stmt.staticVar true nm p :: rest => Stmt.staticVar true nm p :: extractedStatics rest
  | Stmt.staticVar false _ _ :: rest => extractedStatics rest
  | _ => []

/-- The input statements with the extracted `static mut` declarations removed,
in their original order. -/
def remainingStmts : List Stmt → List Stmt
  | [] => []
  | Stmt.staticVar true _ _ :: rest => remainingStmts rest
  | Stmt.staticVar false nm p :: rest => Stmt.staticVar false nm p :: remainingStmts rest
  | Stmt.other p :: rest => Stmt.other p :: rest

theorem extractGo_ok (l : List Stmt) :
    ∀ seen statics stmts, (extractedNames l).Nodup →
      (∀ nm ∈ extractedNames l, nm ∉ seen) →
      extractGo seen statics stmts l =
        Except.ok (statics ++ extractedStatics l, stmts ++ remainingStmts l) := by
  induction l with
  | nil => intro seen statics stmts _ _; simp [extractGo, extractedStatics, remainingStmts]
  | cons stmt rest ih =>
    intro seen statics stmts hnd hfr
    match stmt with
    | Stmt.staticVar true nm p =>
      simp only [extractedNames, List.nodup_cons] at hnd
      rw [extractGo, if_neg (hfr nm (by simp [extractedNames]))]
      rw [ih (nm :: seen) _ _ hnd.2 ?_]
      · simp [extractedStatics, remainingStmts]
      · intro nm2 h2
        simp only [List.mem_cons, not_or]
        exact ⟨fun he => hnd.1 (he ▸ h2), hfr nm2 (by simp [extractedNames, h2])⟩
    | Stmt.staticVar false nm p =>
      simp only [extractedNames] at hnd hfr
      rw [extractGo, ih seen _ _ hnd hfr]
      simp [extractedStatics, remainingStmts]
    | Stmt.other p =>
      simp [extractGo, extractedStatics, remainingStmts]

theorem extractGo_err (l : List Stmt) :
    ∀ seen statics stmts,
      ¬ ((extractedNames l).Nodup ∧ ∀ nm ∈ extractedNames l, nm ∉ seen) →
      ∃ e, extractGo seen statics stmts l = Except.error e := by
  induction l with
  | nil =>
    intro seen statics stmts h
    exact absurd ⟨List.nodup_nil, by simp [extractedNames]⟩ h
  | cons stmt rest ih =>
    intro seen statics stmts h
    match stmt with
    | Stmt.staticVar true nm p =>
      by_cases hin : nm ∈ seen
      · exact ⟨_, by rw [extractGo, if_pos hin]⟩
      · rw [extractGo, if_neg hin]
        refine ih (nm :: seen) _ _ fun ⟨hnd2, hfr2⟩ => h ?_
        have hnotin : nm ∉ extractedNames rest := fun hmem =>
          (hfr2 nm hmem) (List.mem_cons_self nm seen)
        refine ⟨by simp [extractedNames, List.nodup_cons, hnotin, hnd2], ?_⟩
        intro nm2 h2
        simp only [extractedNames, List.mem_cons] at h2
        rcases h2 with he | h2
        · exact he ▸ hin
        · intro hseen
          exact (hfr2 nm2 h2) (List.mem_cons_of_mem nm hseen)
    | Stmt.staticVar false nm p =>
      rw [extractGo]
      refine ih seen _ _ fun ⟨hnd2, hfr2⟩ => h ?_
      exact ⟨by simpa [extractedNames] using hnd2, by simpa [extractedNames] using hfr2⟩
    | Stmt.other p =>
      refine absurd ⟨?_, ?_⟩ h <;> simp [extractedNames]

/-- C8: extracting the declared resources fails exactly when two extracted
`static mut` declarations share a name; otherwise it returns the extracted
declarations and the remaining statements unchanged. -/
theorem extract_static_muts_spec (l : List Stmt) :
    ((extract_static_muts l).isOk = false ↔ ¬ (extractedNames l).Nodup) ∧
    ((extractedNames l).Nodup →
      extract_static_muts l = Except.ok (extractedStatics l, remainingStmts l)) := by
  have hok : (extractedNames l).Nodup →
      extract_static_muts l = Except.ok (extractedStatics l, remainingStmts l) := by
    intro hnd
    rw [extract_static_muts, extractGo_ok l [] [] [] hnd (by simp)]
    simp
  refine ⟨⟨fun hf hnd => ?_, fun hnd => ?_⟩, hok⟩
  · rw [hok hnd] at hf
    simp [Except.isOk, Except.toBool] at hf
  · obtain ⟨e, he⟩ := extractGo_err l [] [] [] fun ⟨hnd2, _⟩ => hnd hnd2
    rw [extract_static_muts, he]
    rfl

theorem extract_static_muts_spec_witness :
    ((extract_static_muts [Stmt.staticVar true "a" 0, Stmt.staticVar true "a" 1]).isOk =
        false ∧
      ¬ (extractedNames [Stmt.staticVar true "a" 0, Stmt.staticVar true "a" 1]).Nodup) ∧
    ((extractedNames [Stmt.staticVar true "a" 0, Stmt.staticVar false "c" 1,
        Stmt.staticVar true "b" 2, Stmt.other 3, Stmt.staticVar true "a" 4]).Nodup ∧
      extract_static_muts [Stmt.staticVar true "a" 0, Stmt.staticVar false "c" 1,
          Stmt.staticVar true "b" 2, Stmt.other 3, Stmt.staticVar true "a" 4] =
        Except.ok ([Stmt.staticVar true "a" 0, Stmt.staticVar true "b" 2],
          [Stmt.staticVar false "c" 1, Stmt.other 3, Stmt.staticVar true "a" 4])) :=
  ⟨⟨(extract_static_muts_spec [Stmt.staticVar true "a" 0,
        Stmt.staticVar true "a" 1]).1.mpr (by decide), by decide⟩,
    ⟨by decide,
      (extract_static_muts_spec [Stmt.staticVar true "a" 0, Stmt.staticVar false "c" 1,
        Stmt.staticVar true "b" 2, Stmt.other 3, Stmt.staticVar true "a" 4]).2 (by decide)⟩⟩

/-! ## Multi-pin helper (`set_pins!`, `src/avr/device/pin.rs`) -/

/-- Model of `let pin_mask = $base_pin::MASK $(| $pin::MASK)*` of `set_pins!`. -/
def pinsMask : List PinDef → Nat
  | [] => 0
  | p :: rest => p.mask ||| pinsMask rest

/-- The `@output_mask` recursion of `set_pins!`, applied to the reversed pin
list produced by `@reverse_for_output_mask`: the head pin's bit is the least
significant bit of the remaining value (`(value >> 0) & 1`, shifted to the
pin's offset), and the recursion continues with `value >> 1`. -/
def outputMaskRev : List PinDef → Nat → Nat
  | [], _ => 0
  | p :: rest, v => ((v >>> 0) &&& 1) <<< p.offset ||| outputMaskRev rest (v >>> 1)

/-- Model of `set_pins!([base, pins...], value)`: one `set_mask_raw` with the combined
mask on the base pin's direction register, then one `write` to the base pin's
output register of `(read & !pin_mask) | output_mask`, with `output_mask`
computed from the reversed pin list. -/
def set_pins (base : PinDef) (pins : List PinDef) (v : Nat) (m : Mem) : Mem :=
  let pin_mask := pinsMask (base :: pins)
  let m1 := base.ddr.set_mask_raw pin_mask m
  base.port.write
    ((base.port.read m1 &&& RegisterDef.bnot base.port.width pin_mask) |||
      outputMaskRev (base :: pins).reverse v) m1

theorem testBit_lsb_shift (v o i : Nat) :
    (((v >>> 0) &&& 1) <<< o).testBit i = (decide (i = o) && v.testBit 0) := by
  have hmod : ∀ d, (v % 2).testBit d = (decide (d < 1) && v.testBit d) := by
    intro d
    rw [show (2 : Nat) = 2 ^ 1 from rfl]
    exact Nat.testBit_mod_two_pow v 1 d
  rw [Nat.shiftRight_zero, Nat.and_one_is_mod, Nat.testBit_shiftLeft, hmod]
  by_cases h : i = o
  · subst h
    simp
  · by_cases hle : o ≤ i
    · have h1 : ¬ (i - o < 1) := by omega
      simp [h, h1]
    · simp [h, hle]

theorem pinsMask_testBit (l : List PinDef) (i : Nat) :
    (pinsMask l).testBit i = true ↔ ∃ p ∈ l, p.offset = i := by
  induction l with
  | nil => simp [pinsMask]
  | cons p rest ih =>
    simp [pinsMask, Nat.testBit_or, ih, PinDef.mask, Nat.shiftLeft_eq,
      Nat.testBit_two_pow]

theorem outputMaskRev_testBit_outside (l : List PinDef) (v i : Nat)
    (h : ∀ p ∈ l, p.offset ≠ i) : (outputMaskRev l v).testBit i = false := by
  induction l generalizing v with
  | nil => simp [outputMaskRev]
  | cons p rest ih =>
    rw [outputMaskRev, Nat.testBit_or, testBit_lsb_shift,
      ih (v >>> 1) (fun q hq => h q (List.mem_cons_of_mem p hq)),
      decide_eq_false (Ne.symm (h p (List.mem_cons_self p rest)))]
    rfl

theorem outputMaskRev_testBit_get (l : List PinDef) (v : Nat) (j : Nat)
    (hj : j < l.length)
    (hdist : ∀ k, (hk : k < l.length) → k ≠ j →
      (l.get ⟨k, hk⟩).offset ≠ (l.get ⟨j, hj⟩).offset) :
    (outputMaskRev l v).testBit (l.get ⟨j, hj⟩).offset = v.testBit j := by
  induction l generalizing v j with
  | nil => simp at hj
  | cons p rest ih =>
    match j with
    | 0 =>
      show (outputMaskRev (p :: rest) v).testBit p.offset = v.testBit 0
      rw [outputMaskRev, Nat.testBit_or, testBit_lsb_shift]
      have hrest : ∀ q ∈ rest, q.offset ≠ p.offset := by
        intro q hq
        obtain ⟨⟨k, hk⟩, rfl⟩ := List.mem_iff_get.mp hq
        exact hdist (k + 1) (Nat.succ_lt_succ hk) (Nat.succ_ne_zero k)
      rw [outputMaskRev_testBit_outside rest (v >>> 1) p.offset hrest]
      simp
    | j' + 1 =>
      have hj' : j' < rest.length := by simpa using hj
      show (outputMaskRev (p :: rest) v).testBit (rest.get ⟨j', hj'⟩).offset =
        v.testBit (j' + 1)
      rw [outputMaskRev, Nat.testBit_or, testBit_lsb_shift]
      have hp : p.offset ≠ (rest.get ⟨j', hj'⟩).offset :=
        hdist 0 (Nat.succ_pos _) (Ne.symm (Nat.succ_ne_zero j'))
      have hdist' : ∀ k, (hk : k < rest.length) → k ≠ j' →
          (rest.get ⟨k, hk⟩).offset ≠ (rest.get ⟨j', hj'⟩).offset := by
        intro k hk hne
        exact hdist (k + 1) (Nat.succ_lt_succ hk) (by omega)
      rw [ih (v >>> 1) j' hj' hdist', decide_eq_false (Ne.symm hp),
        Nat.testBit_shiftRight]
      simp [Nat.add_comm]

/-- C4 as stated is false: with two pins of offsets 0 and 1 listed in this
order (sharing one direction/output register pair) and value 1, the claim
predicts the first-listed pin (offset 0) takes bit 0 of the value and is
driven high; `set_pins!` actually writes output value 2 — the first-listed
pin is low and the last-listed pin receives the least-significant bit. -/
theorem set_pins_counterexample :
    (set_pins ⟨⟨0, 8⟩, ⟨1, 8⟩, ⟨2, 8⟩, 0⟩ [⟨⟨0, 8⟩, ⟨1, 8⟩, ⟨2, 8⟩, 1⟩] 1
        (fun _ => 0)) 1 = 2 ∧
    ((set_pins ⟨⟨0, 8⟩, ⟨1, 8⟩, ⟨2, 8⟩, 0⟩ [⟨⟨0, 8⟩, ⟨1, 8⟩, ⟨2, 8⟩, 1⟩] 1
        (fun _ => 0)) 1).testBit 0 = false ∧
    (1 : Nat).testBit 0 = true := by
  refine ⟨by decide, ?_, by decide⟩
  have h2 : (set_pins ⟨⟨0, 8⟩, ⟨1, 8⟩, ⟨2, 8⟩, 0⟩ [⟨⟨0, 8⟩, ⟨1, 8⟩, ⟨2, 8⟩, 1⟩] 1
      (fun _ => 0)) 1 = 2 := by decide
  rw [h2]
  decide

/-- C4 (amended): for pins sharing one direction/output register pair (8-bit
registers, distinct single-bit offsets), `set_pins!` configures all listed
pins as outputs with a single masked write to the direction register and sets
their levels with a single masked write to the output register that leaves
all bits outside the pins' combined mask unchanged; bit i of the supplied
value (least significant first) determines the level of the i-th listed pin
counted from the END of the list — the last-listed pin receives the
least-significant input bit. -/
theorem set_pins_spec (base : PinDef) (pins : List PinDef) (v : Nat) (m : Mem)
    (hw8d : base.ddr.width = 8) (hw8p : base.port.width = 8)
    (haddr : base.ddr.address ≠ base.port.address)
    (hoff : ∀ p ∈ base :: pins, p.offset < 8)
    (hnd : ((base :: pins).map PinDef.offset).Nodup)
    (hm : m base.port.address < 2 ^ 8) :
    ((set_pins base pins v m) base.ddr.address =
        (m base.ddr.address ||| pinsMask (base :: pins)) % 2 ^ 8 ∧
      ∀ p ∈ base :: pins,
        ((set_pins base pins v m) base.ddr.address).testBit p.offset = true) ∧
    (∀ i, (∀ p ∈ base :: pins, p.offset ≠ i) →
      ((set_pins base pins v m) base.port.address).testBit i =
        (m base.port.address).testBit i) ∧
    (∀ k, (hk : k < (base :: pins).length) →
      ((set_pins base pins v m) base.port.address).testBit
          ((base :: pins).get ⟨k, hk⟩).offset =
        v.testBit ((base :: pins).length - 1 - k)) := by
  have hddr : (set_pins base pins v m) base.ddr.address =
      (m base.ddr.address ||| pinsMask (base :: pins)) % 2 ^ 8 := by
    simp [set_pins, RegisterDef.write, RegisterDef.set_mask_raw,
      RegisterDef.write_volatile, RegisterDef.read_volatile, haddr, hw8d]
  have hport : (set_pins base pins v m) base.port.address =
      ((m base.port.address &&& RegisterDef.bnot 8 (pinsMask (base :: pins))) |||
        outputMaskRev (base :: pins).reverse v) % 2 ^ 8 := by
    simp [set_pins, RegisterDef.write, RegisterDef.read, RegisterDef.set_mask_raw,
      RegisterDef.write_volatile, RegisterDef.read_volatile, Ne.symm haddr, hw8p]
  refine ⟨⟨hddr, ?_⟩, ?_, ?_⟩
  · intro p hp
    rw [hddr, Nat.testBit_mod_two_pow, Nat.testBit_or]
    have hbit : (pinsMask (base :: pins)).testBit p.offset = true :=
      (pinsMask_testBit _ _).mpr ⟨p, hp, rfl⟩
    simp [hoff p hp, hbit]
  · intro i hi
    rw [hport, Nat.testBit_mod_two_pow]
    have houtside : (outputMaskRev (base :: pins).reverse v).testBit i = false :=
      outputMaskRev_testBit_outside _ v i (fun p hp => hi p (List.mem_reverse.mp hp))
    by_cases hlt : i < 8
    · have hmaskbit : (pinsMask (base :: pins)).testBit i = false :=
        Bool.eq_false_iff.mpr fun hb => by
          obtain ⟨p, hp, hpo⟩ := (pinsMask_testBit _ _).mp hb
          exact hi p hp hpo
      have hbnot : (RegisterDef.bnot 8 (pinsMask (base :: pins))).testBit i = true := by
        rw [RegisterDef.bnot, Nat.testBit_xor, Nat.testBit_two_pow_sub_one, hmaskbit]
        simp [hlt]
      rw [Nat.testBit_or, Nat.testBit_and, houtside, hbnot]
      simp [hlt]
    · have hold : (m base.port.address).testBit i = false :=
        Nat.testBit_lt_two_pow (Nat.lt_of_lt_of_le hm
          (Nat.pow_le_pow_right (by omega) (by omega)))
      simp [hlt, hold]
  · intro k hk
    rw [hport, Nat.testBit_mod_two_pow]
    have hmem : (base :: pins).get ⟨k, hk⟩ ∈ base :: pins := List.get_mem _ _ _
    have htlt : ((base :: pins).get ⟨k, hk⟩).offset < 8 := hoff _ hmem
    have hmaskbit : (pinsMask (base :: pins)).testBit
        ((base :: pins).get ⟨k, hk⟩).offset = true :=
      (pinsMask_testBit _ _).mpr ⟨_, hmem, rfl⟩
    have hjrev : (base :: pins).length - 1 - k < (base :: pins).reverse.length := by
      rw [List.length_reverse]
      omega
    have hgetrev : (base :: pins).reverse.get ⟨(base :: pins).length - 1 - k, hjrev⟩ =
        (base :: pins).get ⟨k, hk⟩ := List.get_reverse (base :: pins) k hjrev hk
    have hndrev : ((base :: pins).reverse.map PinDef.offset).Nodup := by
      rw [List.map_reverse, List.nodup_reverse]
      exact hnd
    have hinj := List.nodup_iff_injective_get.mp hndrev
    have hdist : ∀ k2, (hk2 : k2 < (base :: pins).reverse.length) →
        k2 ≠ (base :: pins).length - 1 - k →
        ((base :: pins).reverse.get ⟨k2, hk2⟩).offset ≠
          ((base :: pins).reverse.get ⟨(base :: pins).length - 1 - k, hjrev⟩).offset := by
      intro k2 hk2 hne heq
      have h1 : ((base :: pins).reverse.map PinDef.offset).get
          ⟨k2, by simpa using hk2⟩ =
          ((base :: pins).reverse.map PinDef.offset).get
            ⟨(base :: pins).length - 1 - k, by simpa using hjrev⟩ := by
        rw [List.get_map, List.get_map]
        exact heq
      exact hne (by simpa using congrArg Fin.val (hinj h1))
    have hout := outputMaskRev_testBit_get (base :: pins).reverse v
      ((base :: pins).length - 1 - k) hjrev hdist
    rw [hgetrev] at hout
    have hbnot : (RegisterDef.bnot 8 (pinsMask (base :: pins))).testBit
        ((base :: pins).get ⟨k, hk⟩).offset = false := by
      rw [RegisterDef.bnot, Nat.testBit_xor, Nat.testBit_two_pow_sub_one, hmaskbit,
        decide_eq_true htlt]
      rfl
    rw [Nat.testBit_or, Nat.testBit_and, hout, hbnot]
    simp only [decide_eq_true htlt, Bool.true_and, Bool.and_false, Bool.false_or]

theorem set_pins_spec_witness :
    ((⟨⟨0, 8⟩, ⟨1, 8⟩, ⟨2, 8⟩, 0⟩ : PinDef).ddr.width = 8 ∧
      (⟨⟨0, 8⟩, ⟨1, 8⟩, ⟨2, 8⟩, 0⟩ : PinDef).port.width = 8 ∧
      (⟨⟨0, 8⟩, ⟨1, 8⟩, ⟨2, 8⟩, 0⟩ : PinDef).ddr.address ≠
        (⟨⟨0, 8⟩, ⟨1, 8⟩, ⟨2, 8⟩, 0⟩ : PinDef).port.address ∧
      (∀ p ∈ [(⟨⟨0, 8⟩, ⟨1, 8⟩, ⟨2, 8⟩, 0⟩ : PinDef), ⟨⟨0, 8⟩, ⟨1, 8⟩, ⟨2, 8⟩, 1⟩],
        p.offset < 8) ∧
      ([(⟨⟨0, 8⟩, ⟨1, 8⟩, ⟨2, 8⟩, 0⟩ : PinDef),
        ⟨⟨0, 8⟩, ⟨1, 8⟩, ⟨2, 8⟩, 1⟩].map PinDef.offset).Nodup ∧
      (fun _ => 0 : Mem) 1 < 2 ^ 8) ∧
    (((set_pins ⟨⟨0, 8⟩, ⟨1, 8⟩, ⟨2, 8⟩, 0⟩ [⟨⟨0, 8⟩, ⟨1, 8⟩, ⟨2, 8⟩, 1⟩] 1
          (fun _ => 0)) 0 =
        ((fun _ => 0 : Mem) 0 |||
          pinsMask [⟨⟨0, 8⟩, ⟨1, 8⟩, ⟨2, 8⟩, 0⟩, ⟨⟨0, 8⟩, ⟨1, 8⟩, ⟨2, 8⟩, 1⟩]) % 2 ^ 8 ∧
      ∀ p ∈ [(⟨⟨0, 8⟩, ⟨1, 8⟩, ⟨2, 8⟩, 0⟩ : PinDef), ⟨⟨0, 8⟩, ⟨1, 8⟩, ⟨2, 8⟩, 1⟩],
        ((set_pins ⟨⟨0, 8⟩, ⟨1, 8⟩, ⟨2, 8⟩, 0⟩ [⟨⟨0, 8⟩, ⟨1, 8⟩, ⟨2, 8⟩, 1⟩] 1
          (fun _ => 0)) 0).testBit p.offset = true) ∧
    (∀ i, (∀ p ∈ [(⟨⟨0, 8⟩, ⟨1, 8⟩, ⟨2, 8⟩, 0⟩ : PinDef), ⟨⟨0, 8⟩, ⟨1, 8⟩, ⟨2, 8⟩, 1⟩],
        p.offset ≠ i) →
      ((set_pins ⟨⟨0, 8⟩, ⟨1, 8⟩, ⟨2, 8⟩, 0⟩ [⟨⟨0, 8⟩, ⟨1, 8⟩, ⟨2, 8⟩, 1⟩] 1
          (fun _ => 0)) 1).testBit i = ((fun _ => 0 : Mem) 1).testBit i) ∧
    (∀ k, (hk : k < ([(⟨⟨0, 8⟩, ⟨1, 8⟩, ⟨2, 8⟩, 0⟩ : PinDef),
          ⟨⟨0, 8⟩, ⟨1, 8⟩, ⟨2, 8⟩, 1⟩] : List PinDef).length) →
      ((set_pins ⟨⟨0, 8⟩, ⟨1, 8⟩, ⟨2, 8⟩, 0⟩ [⟨⟨0, 8⟩, ⟨1, 8⟩, ⟨2, 8⟩, 1⟩] 1
          (fun _ => 0)) 1).testBit
          (([(⟨⟨0, 8⟩, ⟨1, 8⟩, ⟨2, 8⟩, 0⟩ : PinDef),
            ⟨⟨0, 8⟩, ⟨1, 8⟩, ⟨2, 8⟩, 1⟩] : List PinDef).get ⟨k, hk⟩).offset =
        (1 : Nat).testBit (([(⟨⟨0, 8⟩, ⟨1, 8⟩, ⟨2, 8⟩, 0⟩ : PinDef),
          ⟨⟨0, 8⟩, ⟨1, 8⟩, ⟨2, 8⟩, 1⟩] : List PinDef).length - 1 - k))) :=
  ⟨⟨rfl, rfl, by decide, by decide, by decide, by decide⟩,
    set_pins_spec ⟨⟨0, 8⟩, ⟨1, 8⟩, ⟨2, 8⟩, 0⟩ [⟨⟨0, 8⟩, ⟨1, 8⟩, ⟨2, 8⟩, 1⟩] 1
      (fun _ => 0) rfl rfl (by decide) (by decide) (by decide) (by decide)⟩
